import Mathlib

/-
Verification of the local-symbol-index / downloader / fallback-search core of
the apple-doc-mcp server.  The TypeScript sources are shallowly embedded:
pure functions become Lean functions, JavaScript `Map` iteration order is
modelled by insertion-ordered lists, fallible operations return `Except` or
`Option`, and the outcomes of network / filesystem effects are passed in as
explicit parameters (oracles).
-/

set_option maxRecDepth 4000
set_option linter.unnecessarySeqFocus false

/-! ## String helpers (JavaScript string primitives) -/

/-- Model of JavaScript `String.prototype.toLowerCase` (ASCII letters). -/
def toLowerStr (s : String) : String := String.mk (s.data.map Char.toLower)

/-- Prefix test on character lists. -/
def charsHasPre : List Char → List Char → Bool
  | [], _ => true
  | _ :: _, [] => false
  | a :: as, b :: bs => a == b && charsHasPre as bs

/-- Substring scan on character lists. -/
def charsHasSub (sub : List Char) : List Char → Bool
  | [] => sub.isEmpty
  | c :: t => charsHasPre sub (c :: t) || charsHasSub sub t

/-- Model of JavaScript `String.prototype.includes`. -/
def strContains (s sub : String) : Bool := charsHasSub sub.data s.data

/-- Upper-case ASCII letter, as tested by the regex class `[A-Z]`. -/
def isUpperAZ (c : Char) : Bool := 'A' ≤ c && c ≤ 'Z'

/-- Delimiter class `[\s/._-]` used by the tokenizer's split. -/
def isDelim (c : Char) : Bool :=
  c == ' ' || c == '\t' || c == '\n' || c == '\r' ||
  c == '/' || c == '.' || c == '_' || c == '-'

/-- Whitespace characters of the regex class `\s` (common cases). -/
def isWsChar (c : Char) : Bool :=
  c == ' ' || c == '\t' || c == '\n' || c == '\r'

/-- Splits characters into the maximal runs of characters not satisfying
`p`; this models `text.split(/[class]+/).filter(Boolean)` for the character
class decided by `p`. -/
def groupsAux (p : Char → Bool) : List Char → List Char → List (List Char)
  | acc, [] => if acc.isEmpty then [] else [acc.reverse]
  | acc, c :: cs =>
    if p c then
      if acc.isEmpty then groupsAux p [] cs
      else acc.reverse :: groupsAux p [] cs
    else groupsAux p (c :: acc) cs

/-- Model of `text.split(/[\s\/._-]+/).filter(Boolean)`. -/
def splitDelims (s : String) : List String :=
  (groupsAux isDelim [] s.data).map String.mk

/-- Split on whitespace only, dropping empty pieces. -/
def splitWhitespace (s : String) : List String :=
  (groupsAux isWsChar [] s.data).map String.mk

/-- Groups characters, starting a new group before each upper-case letter;
the first character always opens the first group (a zero-width split at
position 0 is ignored by JavaScript `split`). -/
def camelGroups : List Char → List Char → List (List Char)
  | acc, [] => [acc.reverse]
  | acc, c :: cs =>
    if isUpperAZ c then acc.reverse :: camelGroups [c] cs
    else camelGroups (c :: acc) cs

/-- Model of `token.split(/(?=[A-Z])/).filter(Boolean)`. -/
def camelSplit (s : String) : List String :=
  match s.data with
  | [] => []
  | c :: cs => (camelGroups [c] cs).map String.mk

/-- Model of JavaScript `string.split(sep)` for a single-character separator,
keeping empty pieces (as JavaScript does). -/
def splitKeepAux (sep : Char) : List Char → List Char → List String
  | acc, [] => [String.mk acc.reverse]
  | acc, c :: cs =>
    if c == sep then String.mk acc.reverse :: splitKeepAux sep [] cs
    else splitKeepAux sep (c :: acc) cs

/-- Model of `url.split('/')` (empty pieces kept). -/
def splitKeep (sep : Char) (s : String) : List String :=
  splitKeepAux sep [] s.data

/-! ## Tokenizer (`LocalSymbolIndex.tokenize`) -/

/-- Model of `Set.prototype.add`: appends `t` unless already present, so the
set keeps insertion order. -/
def addToken (acc : List String) (t : String) : List String :=
  if acc.contains t then acc else acc ++ [t]

/-- Processes one delimiter-split piece, adding its lower-cased form, its
original form, and - when the camel split yields more than one part - every
camel part (both cases) plus the concatenated lower-cased alias. -/
def tokenizePiece (acc : List String) (tok : String) : List String :=
  let acc := addToken acc (toLowerStr tok)
  let acc := addToken acc tok
  let parts := camelSplit tok
  if parts.length > 1 then
    let acc := parts.foldl (fun a p => addToken (addToken a (toLowerStr p)) p) acc
    addToken acc (toLowerStr (String.join parts))
  else acc

/-- Model of `LocalSymbolIndex.tokenize` from
`src/server/services/local-symbol-index.ts`. -/
def tokenize (text : String) : List String :=
  if text.data.isEmpty then [] else (splitDelims text).foldl tokenizePiece []

/-! ## Regular expressions

The wildcard branch of `search` splices the query into `new RegExp` after
substituting only `*` and `?`.  We model the fragment of JavaScript regex
syntax those patterns can exercise: literal characters, `.`, grouping,
alternation and the quantifiers `*`, `+`, `?` (with an optional lazy `?`
suffix, which does not change the accepted language of a whole-string test).
Constructs outside the fragment (character classes, escapes, anchors in the
middle, braces) are modelled as construction failures; a failed construction
models the `SyntaxError` thrown by `new RegExp`. -/

inductive RE where
  | fail : RE
  | eps : RE
  | chr : Char → RE
  | dot : RE
  | star : RE → RE
  | opt : RE → RE
  | plus : RE → RE
  | cat : RE → RE → RE
  | alt : RE → RE → RE
deriving DecidableEq, Repr

/-- The regular expression accepts the empty string. -/
def nullable : RE → Bool
  | .fail => false
  | .eps => true
  | .chr _ => false
  | .dot => false
  | .star _ => true
  | .opt _ => true
  | .plus r => nullable r
  | .cat a b => nullable a && nullable b
  | .alt a b => nullable a || nullable b

/-- Brzozowski derivative. -/
def derivRE : RE → Char → RE
  | .fail, _ => .fail
  | .eps, _ => .fail
  | .chr c, x => if c == x then .eps else .fail
  | .dot, _ => .eps
  | .star r, x => .cat (derivRE r x) (.star r)
  | .opt r, x => derivRE r x
  | .plus r, x => .cat (derivRE r x) (.star r)
  | .cat a b, x => if nullable a then .alt (.cat (derivRE a x) b) (derivRE b x)
                   else .cat (derivRE a x) b
  | .alt a b, x => .alt (derivRE a x) (derivRE b x)

/-- Whole-string match: models `new RegExp('^' + p + '$').test(s)`. -/
def reFull (r : RE) (s : String) : Bool :=
  nullable (s.data.foldl derivRE r)

/-- Unanchored match: models `new RegExp(p).test(s)` for an un-anchored
pattern `p`. -/
def reTest (r : RE) (s : String) : Bool :=
  reFull (.cat (.star .dot) (.cat r (.star .dot))) s

/-- Characters our parser refuses as bare literals: the JavaScript regex
metacharacters plus the constructs outside the modelled fragment. -/
def reMeta (c : Char) : Bool :=
  c == '(' || c == ')' || c == '*' || c == '+' || c == '?' ||
  c == '[' || c == ']' || c == '\\' || c == '^' || c == '$' ||
  c == '|' || c == '.' || c == Char.ofNat 123 || c == Char.ofNat 125

/-- Absorbs an optional lazy-quantifier marker `?` (same accepted language
for a boolean test). -/
def applyLazy (r : RE) : List Char → RE × List Char
  | '?' :: rest => (r, rest)
  | rest => (r, rest)

/-- Grammar level of the recursive-descent parser. -/
inductive PLevel where
  | alt | seq | post | atom
deriving DecidableEq, Repr

/-- Recursive-descent parser for the modelled regex fragment, written as a
single function structurally recursive on an explicit fuel so that it
reduces inside the kernel.  Levels: `alt` parses `seq ('|' seq)*`, `seq`
a (possibly empty) concatenation, `post` an atom with an optional
quantifier, `atom` a literal, `.`, or a parenthesised group. -/
def parseRE (fuel : Nat) (lvl : PLevel) (cs : List Char) : Option (RE × List Char) :=
  match fuel with
  | 0 => none
  | f + 1 =>
    match lvl with
    | .alt =>
      match parseRE f .seq cs with
      | none => none
      | some (r, rest) =>
        match rest with
        | '|' :: rest2 =>
          match parseRE f .alt rest2 with
          | some (r2, rest3) => some (.alt r r2, rest3)
          | none => none
        | _ => some (r, rest)
    | .seq =>
      match cs with
      | [] => some (.eps, [])
      | ')' :: _ => some (.eps, cs)
      | '|' :: _ => some (.eps, cs)
      | _ =>
        match parseRE f .post cs with
        | none => none
        | some (r, rest) =>
          match parseRE f .seq rest with
          | some (r2, rest2) => some (.cat r r2, rest2)
          | none => none
    | .post =>
      match parseRE f .atom cs with
      | none => none
      | some (r, rest) =>
        match rest with
        | '*' :: rest2 => some (applyLazy (.star r) rest2)
        | '+' :: rest2 => some (applyLazy (.plus r) rest2)
        | '?' :: rest2 => some (applyLazy (.opt r) rest2)
        | _ => some (r, rest)
    | .atom =>
      match cs with
      | [] => none
      | c :: rest =>
        if c == '(' then
          match parseRE f .alt rest with
          | some (r, ')' :: rest2) => some (r, rest2)
          | _ => none
        else if c == '.' then some (.dot, rest)
        else if reMeta c then none
        else some (.chr c, rest)

/-- Models `new RegExp(p)` for the whole pattern: `some` on success, `none`
where the constructor throws a `SyntaxError`. -/
def jsRegexParse (p : String) : Option RE :=
  match parseRE (p.length * 4 + 8) .alt p.data with
  | some (r, []) => some r
  | _ => none

/-! ## Local symbol index (`LocalSymbolIndex` in
`src/server/services/local-symbol-index.ts`)

The index is a JavaScript `Map` from id to entry; `search` only iterates its
values in insertion order, so the index is modelled as the insertion-ordered
list of its entries. -/

structure LocalSymbolIndexEntry where
  id : String
  title : String
  path : String
  kind : String
  abstract : String
  platforms : List String
  tokens : List String
  filePath : String
deriving DecidableEq, Repr

/-- Whether the query triggers the wildcard branch:
`query.includes('*') || query.includes('?')`. -/
def hasWildcards (query : String) : Bool :=
  strContains query "*" || strContains query "?"

/-- Model of JavaScript `replaceAll` for a single-character pattern: each
occurrence of `c` becomes `rep`; replacements are not rescanned. -/
def replaceChar (c : Char) (rep : List Char) (s : String) : String :=
  String.mk (s.data.foldr (fun x acc => (if x == c then rep else [x]) ++ acc) [])

/-- The pattern string spliced into `new RegExp`:
`query.replaceAll('*', '.*').replaceAll('?', '.').toLowerCase()`. -/
def wildcardPattern (query : String) : String :=
  toLowerStr (replaceChar '?' ['.'] (replaceChar '*' ['.', '*'] query))

/-- The wildcard-branch test:
`regex.test(entry.title.toLowerCase()) || regex.test(entry.path.toLowerCase())
 || entry.tokens.some(token => regex.test(token))`. -/
def wildEntryMatch (r : RE) (e : LocalSymbolIndexEntry) : Bool :=
  reFull r (toLowerStr e.title) || reFull r (toLowerStr e.path) ||
  e.tokens.any (fun token => reFull r token)

/-- One iteration of the token-scoring loop body: adds 50 for a
case-insensitive title substring hit, 30 for exact token membership, 10 for a
case-insensitive abstract substring hit. -/
def tokenPoints (e : LocalSymbolIndexEntry) (queryToken : String) : Nat :=
  (if strContains (toLowerStr e.title) (toLowerStr queryToken) then 50 else 0) +
  (if e.tokens.contains queryToken then 30 else 0) +
  (if strContains (toLowerStr e.abstract) (toLowerStr queryToken) then 10 else 0)

/-- The non-wildcard score: the loop `for (const queryToken of queryTokens)`
accumulating `score += ...`, where `queryTokens = this.tokenize(query)`. -/
def tokenScore (query : String) (e : LocalSymbolIndexEntry) : Nat :=
  (tokenize query).foldl (fun score t => score + tokenPoints e t) 0

/-- Stable insertion (descending by score): the element is placed before the
first element whose score is not larger, so earlier list elements stay first
among equal scores.  This is the unique stable order, the one produced by
JavaScript's (stable) `Array.prototype.sort` with comparator
`(a, b) => b.score - a.score`. -/
def insertByScoreDesc (x : LocalSymbolIndexEntry × Nat) :
    List (LocalSymbolIndexEntry × Nat) → List (LocalSymbolIndexEntry × Nat)
  | [] => [x]
  | y :: ys => if y.2 ≤ x.2 then x :: y :: ys else y :: insertByScoreDesc x ys

/-- Stable sort by descending score. -/
def sortByScoreDesc : List (LocalSymbolIndexEntry × Nat) → List (LocalSymbolIndexEntry × Nat)
  | [] => []
  | x :: xs => insertByScoreDesc x (sortByScoreDesc xs)

/-- Scored entries with score `> 0`, in index order.  In the wildcard branch
the regex is constructed inside the per-entry loop, so an invalid pattern
throws (`.error`) only when the index has at least one entry; an empty index
returns `[]` without ever constructing the regex. -/
def scoredEntries (idx : List LocalSymbolIndexEntry) (query : String) :
    Except Unit (List (LocalSymbolIndexEntry × Nat)) :=
  if hasWildcards query then
    match idx with
    | [] => .ok []
    | _ =>
      match jsRegexParse (wildcardPattern query) with
      | none => .error ()
      | some r =>
        .ok (((idx.map (fun e => (e, if wildEntryMatch r e then 100 else 0))).filter
          (fun p => 0 < p.2)))
  else
    .ok ((idx.map (fun e => (e, tokenScore query e))).filter (fun p => 0 < p.2))

/-- The ranked (sorted, un-truncated) result list. -/
def searchRanked (idx : List LocalSymbolIndexEntry) (query : String) :
    Except Unit (List (LocalSymbolIndexEntry × Nat)) :=
  (scoredEntries idx query).map sortByScoreDesc

/-- Model of `LocalSymbolIndex.search(query, maxResults)`:
score, keep positives, sort descending (stable), `slice(0, maxResults)`,
map to entries.  `.error` models the exception escaping `search` when the
wildcard pattern is not a valid regular expression. -/
def search (idx : List LocalSymbolIndexEntry) (query : String) (maxResults : Nat) :
    Except Unit (List LocalSymbolIndexEntry) :=
  (searchRanked idx query).map (fun l => (l.take maxResults).map (fun p => p.1))

/-- The score `search` assigns to an entry (0 when the wildcard pattern does
not compile; in that situation a non-empty index makes `search` throw
instead). -/
def entryScore (query : String) (e : LocalSymbolIndexEntry) : Nat :=
  if hasWildcards query then
    match jsRegexParse (wildcardPattern query) with
    | none => 0
    | some r => if wildEntryMatch r e then 100 else 0
  else tokenScore query e

instance {ε α : Type} [DecidableEq ε] [DecidableEq α] : DecidableEq (Except ε α) := fun a b => by
  cases a <;> cases b
  case error.error e f => exact decidable_of_iff (e = f) (by simp)
  case error.ok e x => exact isFalse (by intro h; cases h)
  case ok.error x e => exact isFalse (by intro h; cases h)
  case ok.ok x y => exact decidable_of_iff (x = y) (by simp)

/-- Builds the index entry the spec's examples describe: a bare symbol whose
token set comes from tokenizing its title (empty path, abstract, platforms). -/
def mkTitleEntry (title : String) : LocalSymbolIndexEntry :=
  { id := title, title := title, path := "", kind := "symbol", abstract := "",
    platforms := [], tokens := tokenize title, filePath := "" }

/-! ## Shared document shapes (`apple-client.ts` types)

`references` is a JavaScript object whose entries are iterated with
`Object.entries`, modelled as an association list in property order. -/

structure PlatformInfo where
  name : String
  introducedAt : String
  beta : Bool
deriving DecidableEq, Repr

structure AbstractItem where
  text : String
  type : String
deriving DecidableEq, Repr

structure ReferenceData where
  title : Option String
  kind : Option String
  abstract : List AbstractItem
  platforms : Option (List PlatformInfo)
  url : Option String
deriving DecidableEq, Repr

structure TopicSection where
  anchor : Option String
  identifiers : List String
  title : String
deriving DecidableEq, Repr

structure FwMetadata where
  platforms : List PlatformInfo
  role : String
  title : String
deriving DecidableEq, Repr

structure FrameworkData where
  abstract : List AbstractItem
  metadata : FwMetadata
  references : List (String × ReferenceData)
  topicSections : List TopicSection
deriving DecidableEq, Repr

/-- Model of `AppleDevDocsClient.extractText`:
`abstract?.map(item => item.text).join('') || ''`. -/
def extractText (abstract : List AbstractItem) : String :=
  String.join (abstract.map (fun item => item.text))

/-- Model of `AppleDevDocsClient.formatPlatforms`. -/
def formatPlatforms (platforms : List PlatformInfo) : String :=
  if platforms.isEmpty then "All platforms"
  else
    String.intercalate ", "
      (platforms.map (fun p =>
        p.name ++ " " ++ p.introducedAt ++ (if p.beta then " (Beta)" else "")))

/-! ## Comprehensive symbol downloader
(`src/server/services/comprehensive-symbol-downloader.ts`)

Network effects are passed in as oracles: `fetchSym id attempt` is the
outcome of the `attempt`-th `client.getSymbol` call for `id` (`none` models a
thrown error), and the seed framework fetch outcome is an `Except`
parameter.  The downloader's session state is its `downloadedSymbols` set
plus an instrumentation counter of symbol-fetch attempts actually issued. -/

/-- The constant `rateLimitDelay` getter (100 ms between requests). -/
def rateLimitDelay : Nat := 100

/-- The constant `maxRetries` getter. -/
def maxRetries : Nat := 3

structure DownloaderState where
  downloaded : List String
  fetchCount : Nat
deriving DecidableEq, Repr

/-- Model of `extractAllIdentifiers`: a `Set` seeded with every
`topicSections[*].identifiers` entry and then every `references` key,
returned in insertion order. -/
def extractAllIdentifiers (d : FrameworkData) : List String :=
  ((d.topicSections.map (fun s => s.identifiers)).flatten ++
    d.references.map (fun p => p.1)).foldl addToken []

/-- Outcome of one `downloadSymbolWithRetry` call: the fetched document (if
any attempt succeeded), the number of fetch attempts issued, and the backoff
delays (in ms) slept between consecutive attempts. -/
structure RetryOutcome where
  result : Option FrameworkData
  attempts : Nat
  delays : List Nat
deriving DecidableEq, Repr

/-- The retry loop of `downloadSymbolWithRetry`, with `fuel` the number of
retries still allowed (`maxRetries - attempt`); on failure with fuel left it
sleeps `rateLimitDelay * 2 ^ (attempt - 1)` and retries with `attempt + 1`. -/
def retryAux (fetchSym : String → Nat → Option FrameworkData) (id : String) :
    Nat → Nat → RetryOutcome
  | attempt, 0 =>
    match fetchSym id attempt with
    | some doc => { result := some doc, attempts := 1, delays := [] }
    | none => { result := none, attempts := 1, delays := [] }
  | attempt, f + 1 =>
    match fetchSym id attempt with
    | some doc => { result := some doc, attempts := 1, delays := [] }
    | none =>
      let rest := retryAux fetchSym id (attempt + 1) f
      { result := rest.result, attempts := rest.attempts + 1,
        delays := rateLimitDelay * 2 ^ (attempt - 1) :: rest.delays }

/-- Model of `downloadSymbolWithRetry(identifier)` (first call has
`attempt = 1`).  All errors of the underlying fetch are caught, so the
function never throws: failure is the `none` result. -/
def downloadSymbolWithRetry (fetchSym : String → Nat → Option FrameworkData)
    (id : String) : RetryOutcome :=
  retryAux fetchSym id 1 (maxRetries - 1)

/-- One identifier inside a layer of `downloadSymbolsRecursively`.  JavaScript
creates all promises of the layer first, so each promise's
`downloadedSymbols.has(identifier)` check runs against the set as it was when
the layer started (`layerStart`); successful downloads are added to the set
and their fresh identifiers collected. -/
def layerStep (fetchSym : String → Nat → Option FrameworkData)
    (layerStart : List String) (acc : DownloaderState × List String)
    (id : String) : DownloaderState × List String :=
  if layerStart.contains id then acc
  else
    let out := downloadSymbolWithRetry fetchSym id
    let st := { acc.1 with fetchCount := acc.1.fetchCount + out.attempts }
    match out.result with
    | none => (st, acc.2)
    | some doc =>
      let st := { st with downloaded := addToken st.downloaded id }
      let fresh := (extractAllIdentifiers doc).filter
        (fun nid => !(st.downloaded.contains nid))
      (st, acc.2 ++ fresh)

/-- Model of `downloadSymbolsRecursively(identifiers, depth)`: process the
layer, then recurse on the newly discovered identifiers while `depth < 3`. -/
def downloadSymbolsRecursively (fetchSym : String → Nat → Option FrameworkData)
    (identifiers : List String) (depth : Nat) (st : DownloaderState) :
    DownloaderState :=
  let step := identifiers.foldl (layerStep fetchSym st.downloaded) (st, [])
  if h : step.2 ≠ [] ∧ depth < 3 then
    downloadSymbolsRecursively fetchSym step.2 (depth + 1) step.1
  else step.1
termination_by 4 - depth
decreasing_by omega

/-- Failure modes of `downloadAllSymbols` that escape to the caller. -/
inductive DownloadError where
  | noTechnologySelected
  | frameworkFetchFailed
deriving DecidableEq, Repr

/-- Model of `downloadAllSymbols(context)`: requires an active technology,
fetches the framework document (its failure is fatal), seeds the identifier
set from it, and recursively downloads.  Per-symbol failures are absorbed by
`downloadSymbolWithRetry`, so they can never produce an `.error`. -/
def downloadAllSymbols (activeTechnology : Option String)
    (frameworkFetch : Except Unit FrameworkData)
    (fetchSym : String → Nat → Option FrameworkData)
    (st : DownloaderState) : Except DownloadError DownloaderState :=
  match activeTechnology with
  | none => .error .noTechnologySelected
  | some _ =>
    match frameworkFetch with
    | .error _ => .error .frameworkFetchFailed
    | .ok fw => .ok (downloadSymbolsRecursively fetchSym (extractAllIdentifiers fw) 0 st)

/-! ## Server state (`src/server/state.ts`) -/

structure Technology where
  identifier : String
  title : String
deriving DecidableEq, Repr

structure FrameworkIndexEntry where
  id : String
  ref : ReferenceData
  tokens : List String
deriving DecidableEq, Repr

/-- Model of `ServerState`.  The in-memory `LocalSymbolIndex` object is
modelled by its entry list; `disk` stands for the on-disk cache directory,
which `ServerState` never touches. -/
structure ServerState where
  activeTechnology : Option Technology
  activeFrameworkData : Option FrameworkData
  frameworkIndex : Option (List (String × FrameworkIndexEntry))
  expandedIdentifiers : List String
  localSymbolIndex : Option (List LocalSymbolIndexEntry)
  disk : List (String × String)
deriving DecidableEq, Repr

/-- Model of the private `resetIndexForNewTechnology`. -/
def resetIndexForNewTechnology (st : ServerState) : ServerState :=
  { st with localSymbolIndex := none, activeFrameworkData := none,
            frameworkIndex := none, expandedIdentifiers := [] }

/-- Model of `ServerState.setActiveTechnology`: clearing the selection always
resets; selecting a technology resets exactly when the previous selection's
identifier differs (`previousTechnology?.identifier !== technology.identifier`,
which is true when there was no previous selection). -/
def setActiveTechnology (st : ServerState) (technology : Option Technology) :
    ServerState :=
  let st2 := { st with activeTechnology := technology }
  match technology with
  | none => resetIndexForNewTechnology st2
  | some t =>
    match st.activeTechnology with
    | none => resetIndexForNewTechnology st2
    | some prev =>
      if prev.identifier ≠ t.identifier then resetIndexForNewTechnology st2 else st2

/-- Count reported for the local symbol index right after a switch: a `none`
field makes `getLocalSymbolIndex` lazily create a fresh, empty index, whose
`getSymbolCount()` is 0. -/
def localSymbolIndexCount (st : ServerState) : Nat :=
  match st.localSymbolIndex with
  | none => 0
  | some entries => entries.length

/-! ## Technology catalog cache (`src/apple-client/cache/file-cache.ts`)

`loadTechnologies` reads the persisted `technologies.json`.  The file system
and parser outcome are modelled explicitly: `absent` is ENOENT,
`unparsable` a `JSON.parse` failure, `parsed v` a successful parse. -/

inductive JsonVal where
  | null
  | bool (b : Bool)
  | num (n : Int)
  | str (s : String)
  | arr (xs : List JsonVal)
  | obj (fields : List (String × JsonVal))

/-- JavaScript `value && typeof value === 'object'` (arrays included,
`null` excluded by truthiness). -/
def truthyObject : JsonVal → Bool
  | .obj _ => true
  | .arr _ => true
  | _ => false

/-- JavaScript `'name' in value` for the values that reach it here. -/
def hasField (j : JsonVal) (name : String) : Bool :=
  match j with
  | .obj fields => fields.any (fun f => f.1 == name)
  | _ => false

/-- Field lookup (`value.name`); `none` models `undefined`. -/
def getField (j : JsonVal) (name : String) : Option JsonVal :=
  match j with
  | .obj fields => (fields.find? (fun f => f.1 == name)).map (fun f => f.2)
  | _ => none

/-- JavaScript `Object.keys` for the shapes that reach it. -/
def jsonKeys : JsonVal → List String
  | .obj fields => fields.map (fun f => f.1)
  | .arr xs => (List.range xs.length).map (fun i => toString i)
  | _ => []

/-- JavaScript `Object.values(value)[0]`. -/
def firstValue : JsonVal → Option JsonVal
  | .obj fields => (fields.map (fun f => f.2)).head?
  | .arr xs => xs.head?
  | _ => none

/-- State of the persisted `technologies.json` as seen by one load. -/
inductive TechCacheFile where
  | absent
  | unparsable
  | parsed (v : JsonVal)

/-- Result of `FileCache.loadTechnologies`: `miss` models `undefined` (the
cache-miss signal that triggers a refetch), `hit` a returned catalog object,
`thrown` an error propagated to the caller. -/
inductive LoadTechsResult where
  | miss
  | hit (v : JsonVal)
  | thrown

/-- Model of `FileCache.loadTechnologies`.  ENOENT returns `undefined`; any
other error - in particular a `JSON.parse` failure on a corrupt file - is
logged and re-thrown.  A successful parse is probed for the wrapper format
(`references` key with a non-empty object), then for the legacy direct
format (non-empty, first value looks like a technology); anything else is
logged and returned as `undefined`. -/
def loadTechnologies (file : TechCacheFile) : LoadTechsResult :=
  match file with
  | .absent => .miss
  | .unparsable => .thrown
  | .parsed j =>
    let direct :=
      if 0 < (jsonKeys j).length then
        match firstValue j with
        | some fv =>
          if truthyObject fv && (hasField fv "identifier" || hasField fv "title")
          then .hit j else LoadTechsResult.miss
        | none => LoadTechsResult.miss
      else LoadTechsResult.miss
    if truthyObject j then
      if hasField j "references" then
        let refs :=
          match getField j "references" with
          | none => JsonVal.obj []
          | some .null => JsonVal.obj []
          | some v => v
        if 0 < (jsonKeys refs).length then .hit refs else direct
      else direct
    else .miss

/-! ## Fallback search strategies
(`src/server/handlers/search/strategies/hierarchical-search.ts`,
`regex-search.ts`, `fallback-search.ts`, and
`AppleDevDocsClient.searchFramework` in `apple-client.ts`) -/

inductive FoundVia where
  | direct
  | hierarchical
  | regex
deriving DecidableEq, Repr

structure HierarchicalSearchResult where
  title : String
  framework : String
  path : Option String
  description : String
  kind : Option String
  platforms : String
  foundVia : FoundVia
deriving DecidableEq, Repr

structure MatchInfo where
  isMatch : Bool
  foundVia : FoundVia
deriving DecidableEq, Repr

/-- Model of `checkReferenceMatch(ref, lowerQuery, client)`: the query
substring is matched against the lower-cased title, every `/`-segment of the
lower-cased URL, and the lower-cased abstract text; `foundVia` is `direct`
exactly when the title matched, `hierarchical` otherwise. -/
def checkReferenceMatch (ref : ReferenceData) (lowerQuery : String) : MatchInfo :=
  let title := ref.title.getD ""
  let url := ref.url.getD ""
  let abstractText := extractText ref.abstract
  let pathParts := splitKeep '/' (toLowerStr url)
  let titleMatch := strContains (toLowerStr title) lowerQuery
  let pathMatch := pathParts.any (fun part => strContains part lowerQuery)
  let abstractMatch := strContains (toLowerStr abstractText) lowerQuery
  { isMatch := titleMatch || pathMatch || abstractMatch,
    foundVia := if titleMatch then .direct else .hierarchical }

/-- Model of `createSearchResult(ref, frameworkName, client, options)`. -/
def createSearchResult (ref : ReferenceData) (frameworkName : String)
    (framework : FrameworkData) (foundVia : FoundVia) : HierarchicalSearchResult :=
  { title := ref.title.getD "Symbol",
    framework := frameworkName,
    path := ref.url,
    description := extractText ref.abstract,
    kind := ref.kind,
    platforms := formatPlatforms (ref.platforms.getD framework.metadata.platforms),
    foundVia := foundVia }

/-- The reference loop of `performHierarchicalSearch`: scan stops as soon as
`maxResults` results are collected. -/
def hierScan (framework : FrameworkData) (frameworkName lowerQuery : String)
    (maxResults : Nat) :
    List (String × ReferenceData) → List HierarchicalSearchResult →
    List HierarchicalSearchResult
  | [], acc => acc
  | (_, ref) :: rest, acc =>
    if maxResults ≤ acc.length then acc
    else
      let m := checkReferenceMatch ref lowerQuery
      if m.isMatch then
        hierScan framework frameworkName lowerQuery maxResults rest
          (acc ++ [createSearchResult ref frameworkName framework m.foundVia])
      else hierScan framework frameworkName lowerQuery maxResults rest acc

/-- One expanded index of `processExpandedIndexes`: only title and URL path
segments are tested, every hit is tagged `hierarchical`, and the platforms
fall back to `[]` rather than the framework's. -/
def expandScanEntries (frameworkName lowerQuery : String) (maxResults : Nat) :
    List (String × ReferenceData) → List HierarchicalSearchResult →
    List HierarchicalSearchResult
  | [], acc => acc
  | (_, ref) :: rest, acc =>
    if maxResults ≤ acc.length then acc
    else
      let title := ref.title.getD ""
      let url := ref.url.getD ""
      let pathParts := splitKeep '/' (toLowerStr url)
      if strContains (toLowerStr title) lowerQuery ||
          pathParts.any (fun part => strContains part lowerQuery) then
        expandScanEntries frameworkName lowerQuery maxResults rest
          (acc ++ [{ title := ref.title.getD "Symbol",
                     framework := frameworkName,
                     path := ref.url,
                     description := extractText ref.abstract,
                     kind := ref.kind,
                     platforms := formatPlatforms (ref.platforms.getD []),
                     foundVia := .hierarchical }])
      else expandScanEntries frameworkName lowerQuery maxResults rest acc

/-- Model of `processExpandedIndexes`. -/
def processExpandedIndexes (frameworkName lowerQuery : String) (maxResults : Nat) :
    List (List (String × ReferenceData)) → List HierarchicalSearchResult →
    List HierarchicalSearchResult
  | [], acc => acc
  | idx :: rest, acc =>
    if maxResults ≤ acc.length then acc
    else processExpandedIndexes frameworkName lowerQuery maxResults rest
      (expandScanEntries frameworkName lowerQuery maxResults idx acc)

/-- Model of `performHierarchicalSearch(context, query, frameworkName,
maxResults)`.  The framework document and the lazily expanded reference
indexes are explicit inputs (they come from the cache/network); the direct
reference scan runs first, and the expansion pass runs only when it found
nothing. -/
def performHierarchicalSearch (framework : FrameworkData)
    (expandedIndexes : List (List (String × ReferenceData)))
    (query frameworkName : String) (maxResults : Nat) :
    List HierarchicalSearchResult :=
  let lowerQuery := toLowerStr query
  let results := hierScan framework frameworkName lowerQuery maxResults
    framework.references []
  if results.isEmpty then
    processExpandedIndexes frameworkName lowerQuery maxResults expandedIndexes []
  else results

/-- The fuzzy regex of `performRegexSearch`: the query is escaped (every
character becomes a literal) and its characters are joined by `.*?`; the
lazy quantifier accepts the same strings as the greedy one for a boolean
test, and the `i` flag is modelled by lower-casing both sides. -/
def fuzzyRE (query : String) : RE :=
  (toLowerStr query).data.foldr
    (fun c rest => RE.cat (RE.chr c) (RE.cat (RE.star RE.dot) rest)) RE.eps

/-- The unanchored, case-insensitive test `regex.test(subject)` of
`performRegexSearch`. -/
def fuzzyTest (query subject : String) : Bool :=
  reTest (fuzzyRE query) (toLowerStr subject)

/-- The reference loop of `performRegexSearch`, tagging every hit `regex`. -/
def regexScan (framework : FrameworkData) (frameworkName query : String)
    (maxResults : Nat) :
    List (String × ReferenceData) → List HierarchicalSearchResult →
    List HierarchicalSearchResult
  | [], acc => acc
  | (_, ref) :: rest, acc =>
    if maxResults ≤ acc.length then acc
    else
      let title := ref.title.getD ""
      let url := ref.url.getD ""
      let abstractText := extractText ref.abstract
      if fuzzyTest query title || fuzzyTest query url || fuzzyTest query abstractText then
        regexScan framework frameworkName query maxResults rest
          (acc ++ [{ title := ref.title.getD "Symbol",
                     framework := frameworkName,
                     path := ref.url,
                     description := extractText ref.abstract,
                     kind := ref.kind,
                     platforms := formatPlatforms
                       (ref.platforms.getD framework.metadata.platforms),
                     foundVia := .regex }])
      else regexScan framework frameworkName query maxResults rest acc

/-- Model of `performRegexSearch(context, query, frameworkName, maxResults)`. -/
def performRegexSearch (framework : FrameworkData) (query frameworkName : String)
    (maxResults : Nat) : List HierarchicalSearchResult :=
  regexScan framework frameworkName query maxResults framework.references []

structure SearchResult where
  description : String
  framework : String
  path : Option String
  platforms : String
  symbolKind : Option String
  title : String
deriving DecidableEq, Repr

/-- The reference loop of `AppleDevDocsClient.searchFramework`: plain
case-insensitive substring containment on title or abstract, then the
optional `symbolType` (case-insensitive kind equality; a reference without a
kind never passes) and `platform` (case-insensitive substring on some
platform name; a reference without platforms never passes) post-filters. -/
def searchFrameworkScan (framework : FrameworkData) (frameworkName lowerQuery : String)
    (maxResults : Nat) (platform symbolType : Option String) :
    List ReferenceData → List SearchResult → List SearchResult
  | [], acc => acc
  | ref :: rest, acc =>
    if maxResults ≤ acc.length then acc
    else
      let title := ref.title.getD ""
      let abstractText := extractText ref.abstract
      if !(strContains (toLowerStr title) lowerQuery) &&
          !(strContains (toLowerStr abstractText) lowerQuery) then
        searchFrameworkScan framework frameworkName lowerQuery maxResults
          platform symbolType rest acc
      else
        let typeSkip :=
          match symbolType with
          | none => false
          | some st =>
            match ref.kind with
            | none => true
            | some k => !(toLowerStr k == toLowerStr st)
        if typeSkip then
          searchFrameworkScan framework frameworkName lowerQuery maxResults
            platform symbolType rest acc
        else
          let platSkip :=
            match platform with
            | none => false
            | some pl =>
              match ref.platforms with
              | none => true
              | some ps =>
                !(ps.any (fun p => strContains (toLowerStr p.name) (toLowerStr pl)))
          if platSkip then
            searchFrameworkScan framework frameworkName lowerQuery maxResults
              platform symbolType rest acc
          else
            searchFrameworkScan framework frameworkName lowerQuery maxResults
              platform symbolType rest
              (acc ++ [{ title := ref.title.getD "Symbol",
                         framework := frameworkName,
                         path := ref.url,
                         description := abstractText,
                         symbolKind := ref.kind,
                         platforms := formatPlatforms
                           (ref.platforms.getD framework.metadata.platforms) }])

/-- Model of `AppleDevDocsClient.searchFramework(frameworkName, query,
options)`. -/
def searchFramework (framework : FrameworkData) (frameworkName query : String)
    (maxResults : Nat) (platform symbolType : Option String) : List SearchResult :=
  searchFrameworkScan framework frameworkName (toLowerStr query) maxResults
    platform symbolType (framework.references.map (fun p => p.2)) []

/-- Model of `performFallbackSearches(context, query, activeTechnology,
options)`: hierarchical search first; the regex search runs only if it
returned nothing; the plain framework search (whose results are re-tagged
`direct`) runs only if both returned nothing. -/
def performFallbackSearches (framework : FrameworkData)
    (expandedIndexes : List (List (String × ReferenceData)))
    (query frameworkName : String) (maxResults : Nat)
    (platform symbolType : Option String) : List HierarchicalSearchResult :=
  let fallbackResults := performHierarchicalSearch framework expandedIndexes
    query frameworkName maxResults
  if !fallbackResults.isEmpty then fallbackResults
  else
    let regexResults := performRegexSearch framework query frameworkName maxResults
    if !regexResults.isEmpty then regexResults
    else
      (searchFramework framework frameworkName query maxResults platform symbolType).map
        (fun r => { title := r.title, framework := r.framework, path := r.path,
                    description := r.description, kind := r.symbolKind,
                    platforms := r.platforms, foundVia := .direct })

/-! ## Definitions taken from the claims' own wording, and concrete sample
data used by the claim theorems -/

/-- Score written from the claim's words for C2 ("splitting the query on
whitespace into terms and summing, per term ..."): identical per-term points,
but the terms are the whitespace-split pieces of the query rather than the
tokenizer's output.  Kept for comparison with the code's `tokenScore`. -/
def claimWhitespaceScore (query : String) (e : LocalSymbolIndexEntry) : Nat :=
  ((splitWhitespace query).map (fun term => tokenPoints e term)).sum

/-- The non-wildcard score restated as a sum over the query's tokens (the
amended description of C2); proved equal to the loop-accumulated
`tokenScore`. -/
def specTokenScore (query : String) (e : LocalSymbolIndexEntry) : Nat :=
  ((tokenize query).map (fun t => tokenPoints e t)).sum

/-- The spec's three-symbol example index, in insertion order. -/
def idxGLB : List LocalSymbolIndexEntry :=
  [mkTitleEntry "GridItem", mkTitleEntry "LazyGrid", mkTitleEntry "Button"]

/-- Sample reference whose URL has a path segment containing `tabbar` while
its title does not contain it. -/
def exTabbarRef : ReferenceData :=
  { title := some "Toolbar Placement", kind := some "symbol", abstract := [],
    platforms := none, url := some "/documentation/swiftui/toolbarplacement/tabbar" }

/-- Sample framework document holding `exTabbarRef` as its one reference. -/
def exFramework : FrameworkData :=
  { abstract := [], metadata := { platforms := [], role := "collection", title := "SwiftUI" },
    references := [("doc-tabbar", exTabbarRef)], topicSections := [] }

/-- Sample server state with technology `doc-a` active and every dependent
in-memory structure populated. -/
def exServerState : ServerState :=
  { activeTechnology := some { identifier := "doc-a", title := "A" },
    activeFrameworkData := some exFramework,
    frameworkIndex := some [("doc-tabbar",
      { id := "doc-tabbar", ref := exTabbarRef, tokens := ["tabbar"] })],
    expandedIdentifiers := ["doc-tabbar"],
    localSymbolIndex := some [mkTitleEntry "GridItem"],
    disk := [("technologies", "cached")] }

/-! ### Lemmas about the stable score sort -/

lemma mem_insertByScoreDesc {a x : LocalSymbolIndexEntry × Nat}
    {l : List (LocalSymbolIndexEntry × Nat)} :
    a ∈ insertByScoreDesc x l ↔ a = x ∨ a ∈ l := by
  induction l with
  | nil => simp [insertByScoreDesc]
  | cons y ys ih =>
    by_cases h : y.2 ≤ x.2 <;> simp [insertByScoreDesc, h, ih] <;> tauto

lemma mem_sortByScoreDesc {a : LocalSymbolIndexEntry × Nat}
    {l : List (LocalSymbolIndexEntry × Nat)} :
    a ∈ sortByScoreDesc l ↔ a ∈ l := by
  induction l with
  | nil => simp [sortByScoreDesc]
  | cons y ys ih => simp [sortByScoreDesc, mem_insertByScoreDesc, ih]

lemma length_insertByScoreDesc (x : LocalSymbolIndexEntry × Nat)
    (l : List (LocalSymbolIndexEntry × Nat)) :
    (insertByScoreDesc x l).length = l.length + 1 := by
  induction l with
  | nil => simp [insertByScoreDesc]
  | cons y ys ih =>
    by_cases h : y.2 ≤ x.2 <;> simp [insertByScoreDesc, h, ih]

lemma length_sortByScoreDesc (l : List (LocalSymbolIndexEntry × Nat)) :
    (sortByScoreDesc l).length = l.length := by
  induction l with
  | nil => rfl
  | cons y ys ih => simp [sortByScoreDesc, length_insertByScoreDesc, ih]

lemma pairwise_insertByScoreDesc {x : LocalSymbolIndexEntry × Nat}
    {l : List (LocalSymbolIndexEntry × Nat)}
    (hl : l.Pairwise (fun a b => b.2 ≤ a.2)) :
    (insertByScoreDesc x l).Pairwise (fun a b => b.2 ≤ a.2) := by
  induction l with
  | nil => simp [insertByScoreDesc]
  | cons y ys ih =>
    rcases List.pairwise_cons.mp hl with ⟨hy, hys⟩
    by_cases h : y.2 ≤ x.2
    · rw [insertByScoreDesc, if_pos h]
      refine List.pairwise_cons.mpr ⟨?_, hl⟩
      intro z hz
      rcases List.mem_cons.mp hz with rfl | hz
      · exact h
      · exact le_trans (hy z hz) h
    · rw [insertByScoreDesc, if_neg h]
      refine List.pairwise_cons.mpr ⟨?_, ih hys⟩
      intro z hz
      rcases mem_insertByScoreDesc.mp hz with rfl | hz
      · omega
      · exact hy z hz

lemma pairwise_sortByScoreDesc (l : List (LocalSymbolIndexEntry × Nat)) :
    (sortByScoreDesc l).Pairwise (fun a b => b.2 ≤ a.2) := by
  induction l with
  | nil => simp [sortByScoreDesc]
  | cons y ys ih => exact pairwise_insertByScoreDesc ih

lemma filter_insertByScoreDesc (x : LocalSymbolIndexEntry × Nat)
    (l : List (LocalSymbolIndexEntry × Nat)) (s : Nat) :
    (insertByScoreDesc x l).filter (fun p => p.2 == s) =
      if x.2 == s then x :: l.filter (fun p => p.2 == s)
      else l.filter (fun p => p.2 == s) := by
  induction l with
  | nil => by_cases hx : x.2 == s <;> simp [insertByScoreDesc, List.filter_cons, hx]
  | cons y ys ih =>
    by_cases h : y.2 ≤ x.2
    · by_cases hx : x.2 == s <;> simp [insertByScoreDesc, h, List.filter_cons, hx]
    · have hxy : x.2 < y.2 := by omega
      by_cases hx : x.2 == s
      · have hxs : x.2 = s := by simpa using hx
        have hy : (y.2 == s) = false := by simp only [beq_eq_false_iff_ne, ne_eq]; omega
        simp [insertByScoreDesc, h, List.filter_cons, hx, hy, ih]
      · by_cases hy : y.2 == s <;> simp [insertByScoreDesc, h, List.filter_cons, hx, hy, ih]

lemma filter_sortByScoreDesc (l : List (LocalSymbolIndexEntry × Nat)) (s : Nat) :
    (sortByScoreDesc l).filter (fun p => p.2 == s) = l.filter (fun p => p.2 == s) := by
  induction l with
  | nil => rfl
  | cons y ys ih =>
    by_cases hy : y.2 == s <;>
      simp [sortByScoreDesc, filter_insertByScoreDesc, hy, List.filter, ih]

lemma foldl_add_eq_sum (g : String → Nat) (l : List String) (n : Nat) :
    l.foldl (fun acc t => acc + g t) n = n + (l.map g).sum := by
  induction l generalizing n with
  | nil => simp
  | cons t ts ih => simp [List.foldl, ih]; omega

/-! ### Membership lemmas for the tokenizer's set accumulation -/

lemma mem_addToken_self (acc : List String) (t : String) : t ∈ addToken acc t := by
  unfold addToken
  by_cases h : acc.contains t
  · rw [if_pos h]
    simpa using h
  · rw [if_neg h]
    simp

lemma mem_addToken_mono {x : String} {acc : List String} (t : String)
    (hx : x ∈ acc) : x ∈ addToken acc t := by
  unfold addToken
  by_cases h : acc.contains t
  · rwa [if_pos h]
  · rw [if_neg h]
    exact List.mem_append_left _ hx

lemma mem_camelFold_mono {x : String} {acc : List String} (parts : List String)
    (hx : x ∈ acc) :
    x ∈ parts.foldl (fun a p => addToken (addToken a (toLowerStr p)) p) acc := by
  induction parts generalizing acc with
  | nil => exact hx
  | cons p ps ih => exact ih (mem_addToken_mono _ (mem_addToken_mono _ hx))

lemma mem_camelFold_of_mem {p : String} (parts : List String) (acc : List String)
    (hp : p ∈ parts) :
    p ∈ parts.foldl (fun a q => addToken (addToken a (toLowerStr q)) q) acc ∧
    toLowerStr p ∈ parts.foldl (fun a q => addToken (addToken a (toLowerStr q)) q) acc := by
  induction parts generalizing acc with
  | nil => cases hp
  | cons q qs ih =>
    rcases List.mem_cons.mp hp with rfl | hp
    · constructor
      · exact mem_camelFold_mono qs (mem_addToken_self _ _)
      · exact mem_camelFold_mono qs
          (mem_addToken_mono _ (mem_addToken_self _ _))
    · exact ih _ hp

lemma mem_tokenizePiece_mono {x : String} {acc : List String} (tok : String)
    (hx : x ∈ acc) : x ∈ tokenizePiece acc tok := by
  unfold tokenizePiece
  by_cases h : (camelSplit tok).length > 1
  · simp only [h, if_pos]
    exact mem_addToken_mono _ (mem_camelFold_mono _
      (mem_addToken_mono _ (mem_addToken_mono _ hx)))
  · simp only [h, if_neg, if_false]
    exact mem_addToken_mono _ (mem_addToken_mono _ hx)

lemma mem_tokenizeFold_mono {x : String} {acc : List String} (l : List String)
    (hx : x ∈ acc) : x ∈ l.foldl tokenizePiece acc := by
  induction l generalizing acc with
  | nil => exact hx
  | cons t ts ih => exact ih (mem_tokenizePiece_mono _ hx)

lemma camel_mem_tokenizePiece {tok p : String} (acc : List String)
    (hlen : 1 < (camelSplit tok).length) (hp : p ∈ camelSplit tok) :
    (p ∈ tokenizePiece acc tok ∧ toLowerStr p ∈ tokenizePiece acc tok) ∧
    toLowerStr (String.join (camelSplit tok)) ∈ tokenizePiece acc tok := by
  unfold tokenizePiece
  simp only [if_pos hlen]
  have h := mem_camelFold_of_mem (camelSplit tok)
    (addToken (addToken acc (toLowerStr tok)) tok) hp
  exact ⟨⟨mem_addToken_mono _ h.1, mem_addToken_mono _ h.2⟩, mem_addToken_self _ _⟩

lemma camel_mem_tokenizeFold {tok p : String} (l : List String) (acc : List String)
    (htok : tok ∈ l) (hlen : 1 < (camelSplit tok).length) (hp : p ∈ camelSplit tok) :
    (p ∈ l.foldl tokenizePiece acc ∧ toLowerStr p ∈ l.foldl tokenizePiece acc) ∧
    toLowerStr (String.join (camelSplit tok)) ∈ l.foldl tokenizePiece acc := by
  induction l generalizing acc with
  | nil => cases htok
  | cons t ts ih =>
    rcases List.mem_cons.mp htok with rfl | htok
    · have h := camel_mem_tokenizePiece acc hlen hp
      exact ⟨⟨mem_tokenizeFold_mono ts h.1.1, mem_tokenizeFold_mono ts h.1.2⟩,
        mem_tokenizeFold_mono ts h.2⟩
    · exact ih _ htok

lemma splitDelims_empty_of_isEmpty {s : String} (h : s.data.isEmpty) :
    splitDelims s = [] := by
  unfold splitDelims
  cases hd : s.data with
  | nil => rfl
  | cons c cs => rw [hd] at h; simp at h

/-! ### Characterisation of the scored list -/

lemma scoredEntries_eq {idx : List LocalSymbolIndexEntry} {query : String}
    {sc : List (LocalSymbolIndexEntry × Nat)}
    (h : scoredEntries idx query = .ok sc) :
    sc = (idx.map (fun e => (e, entryScore query e))).filter (fun p => 0 < p.2) := by
  unfold scoredEntries at h
  by_cases hw : hasWildcards query
  · rw [if_pos hw] at h
    match idx with
    | [] =>
      simp only [Except.ok.injEq] at h
      simp [← h]
    | e0 :: rest =>
      cases hp : jsRegexParse (wildcardPattern query) with
      | none => rw [hp] at h; cases h
      | some r =>
        rw [hp] at h
        simp only [Except.ok.injEq] at h
        subst h
        congr 1
        apply List.map_congr_left
        intro e _
        simp [entryScore, hw, hp]
  · rw [if_neg hw] at h
    simp only [Except.ok.injEq] at h
    subst h
    congr 1
    apply List.map_congr_left
    intro e _
    simp [entryScore, hw]

/-! ## Claim theorems -/

/-- C9: `tokenize("GridItem")` returns a token set containing `grid`,
`item`, `griditem`, and `GridItem`; and in general, every
delimiter-split piece whose camel split has more than one part contributes
each sub-word in original and lower-cased form plus the concatenated
lower-cased alias. -/
theorem tokenize_camel_aliases :
    ("grid" ∈ tokenize "GridItem" ∧ "item" ∈ tokenize "GridItem" ∧
     "griditem" ∈ tokenize "GridItem" ∧ "GridItem" ∈ tokenize "GridItem") ∧
    (∀ s t, t ∈ splitDelims s → 1 < (camelSplit t).length →
      (∀ p ∈ camelSplit t, p ∈ tokenize s ∧ toLowerStr p ∈ tokenize s) ∧
      toLowerStr (String.join (camelSplit t)) ∈ tokenize s) := by
  constructor
  · exact ⟨by decide, by decide, by decide, by decide⟩
  · intro s t ht hlen
    by_cases hs : s.data.isEmpty
    · rw [splitDelims_empty_of_isEmpty hs] at ht
      cases ht
    · have hne : ¬(s.data.isEmpty = true) := by simpa using hs
      unfold tokenize
      rw [if_neg hne]
      have hex : ∃ p, p ∈ camelSplit t := by
        cases hcs : camelSplit t with
        | nil => rw [hcs] at hlen; simp at hlen
        | cons a as => exact ⟨a, List.mem_cons_self a as⟩
      obtain ⟨p0, hp0⟩ := hex
      refine ⟨?_, (camel_mem_tokenizeFold _ [] ht hlen hp0).2⟩
      intro p hp
      exact (camel_mem_tokenizeFold _ [] ht hlen hp).1

/-- C9 witness: the general clause applied to the piece `GridItem` of the
string `GridItem` and its camel part `Grid`. -/
theorem tokenize_camel_aliases_witness :
    "GridItem" ∈ splitDelims "GridItem" ∧ 1 < (camelSplit "GridItem").length ∧
    "Grid" ∈ tokenize "GridItem" ∧ toLowerStr "Grid" ∈ tokenize "GridItem" := by
  refine ⟨by decide, by decide, ?_, ?_⟩
  · exact ((tokenize_camel_aliases.2 "GridItem" "GridItem" (by decide) (by decide)).1
      "Grid" (by decide)).1
  · exact ((tokenize_camel_aliases.2 "GridItem" "GridItem" (by decide) (by decide)).1
      "Grid" (by decide)).2

/-- C10: a wildcard query that also contains other regex metacharacters
(here `Grid(*`, whose spliced pattern `grid(.*` has an unterminated group)
makes `search` on a non-empty index throw from regex construction instead of
returning a list. -/
theorem search_invalid_wildcard_throws :
    search [mkTitleEntry "GridItem"] "Grid(*" 20 = .error () := by decide

/-- C1 counterexample: on the index `GridItem`, `LazyGrid`, `Button` (each
with its tokenizer-derived token set), `search("Grid*", 3)` returns
`GridItem` and `LazyGrid` - not only `GridItem` - because the anchored
pattern `^grid.*$` also matches LazyGrid's camel-split token `grid`. -/
theorem search_grid_wildcard_counterexample :
    search idxGLB "Grid*" 3 = .ok [mkTitleEntry "GridItem", mkTitleEntry "LazyGrid"] ∧
    search idxGLB "Grid*" 3 ≠ .ok [mkTitleEntry "GridItem"] := by
  exact ⟨by decide, by decide⟩

/-- C1 amended: for every `maxResults` of at least 3, `search("Grid*", N)`
on the `GridItem` / `LazyGrid` / `Button` index returns exactly the entries
`GridItem` and `LazyGrid` in index order: the anchored wildcard regex
(`*` to `.*`, `?` to `.`) must match the full lower-cased title, the full
path, or one of the tokens, and `LazyGrid` matches through its token
`grid` while `Button` matches nothing. -/
theorem search_grid_wildcard_amended :
    ∀ N, 3 ≤ N →
      search idxGLB "Grid*" N = .ok [mkTitleEntry "GridItem", mkTitleEntry "LazyGrid"] := by
  intro N hN
  have h : searchRanked idxGLB "Grid*" =
      .ok [(mkTitleEntry "GridItem", 100), (mkTitleEntry "LazyGrid", 100)] := by decide
  unfold search
  rw [h]
  simp only [Except.map]
  rw [List.take_of_length_le (by simp; omega)]
  rfl

/-- C1 amended witness: instantiated at `maxResults = 3`. -/
theorem search_grid_wildcard_amended_witness :
    3 ≤ 3 ∧
    search idxGLB "Grid*" 3 = .ok [mkTitleEntry "GridItem", mkTitleEntry "LazyGrid"] :=
  ⟨le_refl 3, search_grid_wildcard_amended 3 (le_refl 3)⟩

/-- C2 counterexample: for the wildcard-free query `Grid.Item` and the entry
titled `Grid`, the claimed whitespace-split scoring yields 0 (so the entry
would not appear), but `search` scores it 160 and returns it: the terms are
the tokenizer's output (`grid`, `Grid`, `item`, `Item`), not the
whitespace-split query. -/
theorem search_scoring_counterexample :
    hasWildcards "Grid.Item" = false ∧
    claimWhitespaceScore "Grid.Item" (mkTitleEntry "Grid") = 0 ∧
    tokenScore "Grid.Item" (mkTitleEntry "Grid") = 160 ∧
    search [mkTitleEntry "Grid"] "Grid.Item" 20 = .ok [mkTitleEntry "Grid"] := by
  exact ⟨by decide, by decide, by decide, by decide⟩

/-- C2 amended: for a query with no wildcards, `search` scores every entry
by summing, over the terms produced by `tokenize(query)` (delimiter split
plus lower-cased and camel-split variants), the points +50 for a
case-insensitive title substring hit, +30 for exact token membership, +10
for a case-insensitive abstract substring hit; exactly the entries with a
strictly positive score appear among the ranked results, each paired with
that score. -/
theorem search_scoring_amended :
    (∀ query e, tokenScore query e = specTokenScore query e) ∧
    (∀ idx query r, hasWildcards query = false → searchRanked idx query = .ok r →
      (∀ p ∈ r, p.2 = specTokenScore query p.1 ∧ 0 < p.2 ∧ p.1 ∈ idx) ∧
      (∀ e ∈ idx, 0 < specTokenScore query e → (e, specTokenScore query e) ∈ r)) := by
  have hscore : ∀ query e, tokenScore query e = specTokenScore query e := by
    intro query e
    unfold tokenScore specTokenScore
    rw [foldl_add_eq_sum]
    simp
  refine ⟨hscore, ?_⟩
  intro idx query r hw hr
  have hsc : scoredEntries idx query = .ok (((idx.map (fun e => (e, tokenScore query e))).filter
      (fun p => 0 < p.2))) := by
    unfold scoredEntries
    rw [if_neg (by simp [hw])]
  have hr2 : r = sortByScoreDesc ((idx.map (fun e => (e, tokenScore query e))).filter
      (fun p => 0 < p.2)) := by
    unfold searchRanked at hr
    rw [hsc] at hr
    simpa [Except.map] using hr.symm
  subst hr2
  constructor
  · intro p hp
    have hp2 := mem_sortByScoreDesc.mp hp
    have hp3 := List.mem_filter.mp hp2
    obtain ⟨e, he, hpe⟩ := List.mem_map.mp hp3.1
    refine ⟨?_, ?_, ?_⟩
    · rw [← hpe, ← hscore]
    · simpa using hp3.2
    · rw [← hpe]; exact he
  · intro e he hpos
    apply mem_sortByScoreDesc.mpr
    apply List.mem_filter.mpr
    refine ⟨?_, ?_⟩
    · apply List.mem_map.mpr
      exact ⟨e, he, by rw [hscore]⟩
    · simpa using hpos

/-- C2 amended witness: the non-wildcard query `view` on a one-entry index
titled `View`, whose spec-token score 80 places it in the ranked results. -/
theorem search_scoring_amended_witness :
    hasWildcards "view" = false ∧
    searchRanked [mkTitleEntry "View"] "view" = .ok [(mkTitleEntry "View", 80)] ∧
    (mkTitleEntry "View", specTokenScore "view" (mkTitleEntry "View")) ∈
      [(mkTitleEntry "View", 80)] := by
  refine ⟨by decide, by decide, ?_⟩
  exact (search_scoring_amended.2 [mkTitleEntry "View"] "view"
      [(mkTitleEntry "View", 80)] (by decide) (by decide)).2
    (mkTitleEntry "View") (by decide) (by decide)

/-- C3 counterexample: with entries inserted as `ZebraView` then
`AppleView`, the query `view` scores both 80, yet `search` returns them in
index insertion order, not in case-insensitive title order (which would put
`AppleView` first): the comparator is only `b.score - a.score` and JavaScript's
stable sort keeps insertion order among equal scores. -/
theorem search_tie_counterexample :
    search [mkTitleEntry "ZebraView", mkTitleEntry "AppleView"] "view" 20
      = .ok [mkTitleEntry "ZebraView", mkTitleEntry "AppleView"] ∧
    entryScore "view" (mkTitleEntry "ZebraView")
      = entryScore "view" (mkTitleEntry "AppleView") ∧
    (toLowerStr (mkTitleEntry "AppleView").title).data
      < (toLowerStr (mkTitleEntry "ZebraView").title).data ∧
    search [mkTitleEntry "ZebraView", mkTitleEntry "AppleView"] "view" 20
      ≠ .ok [mkTitleEntry "AppleView", mkTitleEntry "ZebraView"] := by
  exact ⟨by decide, by decide, by decide, by decide⟩

/-- C3 amended: whenever `search` returns a list (it can throw on a
malformed wildcard query instead), the list is sorted by descending score,
contains at most `maxResults` entries, holds only index entries of strictly
positive score - and entries of equal score appear in the index's insertion
order (stable sort), not in case-insensitive title order; the last clause is
stated for every score level when no truncation occurs. -/
theorem search_sorted_amended :
    ∀ idx query maxResults l, search idx query maxResults = .ok l →
      l.length ≤ maxResults ∧
      l.Pairwise (fun a b => entryScore query b ≤ entryScore query a) ∧
      (∀ e ∈ l, e ∈ idx ∧ 0 < entryScore query e) ∧
      ((idx.filter (fun e => 0 < entryScore query e)).length ≤ maxResults →
        ∀ s, 0 < s →
          l.filter (fun e => entryScore query e == s) =
            idx.filter (fun e => entryScore query e == s)) := by
  intro idx query maxResults l hl
  unfold search searchRanked at hl
  cases hsc : scoredEntries idx query with
  | error err => rw [hsc] at hl; cases hl
  | ok sc =>
    rw [hsc] at hl
    simp only [Except.map, Except.ok.injEq] at hl
    have hl2 : l = ((sortByScoreDesc sc).take maxResults).map (fun p => p.1) := hl.symm
    have hchar := scoredEntries_eq hsc
    have hsnd : ∀ p ∈ sortByScoreDesc sc, p.2 = entryScore query p.1 := by
      intro p hp
      have hp1 := mem_sortByScoreDesc.mp hp
      rw [hchar] at hp1
      obtain ⟨e, _, hpe⟩ := List.mem_map.mp (List.mem_filter.mp hp1).1
      rw [← hpe]
    refine ⟨?_, ?_, ?_, ?_⟩
    · rw [hl2, List.length_map, List.length_take]
      exact Nat.min_le_left _ _
    · have hpw1 : ((sortByScoreDesc sc).take maxResults).Pairwise (fun a b => b.2 ≤ a.2) :=
        (pairwise_sortByScoreDesc sc).sublist (List.take_sublist _ _)
      have hpw2 : ((sortByScoreDesc sc).take maxResults).Pairwise
          (fun a b => entryScore query b.1 ≤ entryScore query a.1) := by
        refine hpw1.imp_of_mem ?_
        intro a b ha hb hab
        have ha2 := hsnd a ((List.take_sublist _ _).subset ha)
        have hb2 := hsnd b ((List.take_sublist _ _).subset hb)
        rw [← ha2, ← hb2]
        exact hab
      rw [hl2]
      exact List.pairwise_map.mpr hpw2
    · intro e hel
      rw [hl2] at hel
      obtain ⟨p, hp, hpe⟩ := List.mem_map.mp hel
      have hpm : p ∈ sortByScoreDesc sc := (List.take_sublist _ _).subset hp
      have hp1 := mem_sortByScoreDesc.mp hpm
      rw [hchar] at hp1
      have hfil := List.mem_filter.mp hp1
      obtain ⟨e2, he2, hpe2⟩ := List.mem_map.mp hfil.1
      have he2e : e2 = e := by rw [← hpe, ← hpe2]
      subst he2e
      refine ⟨he2, ?_⟩
      have hpos : 0 < p.2 := by simpa using hfil.2
      rw [← hpe2] at hpos
      exact hpos
    · intro hcnt s hs
      have hsclen : sc.length = (idx.filter (fun e => 0 < entryScore query e)).length := by
        rw [hchar, List.filter_map, List.length_map]
        rfl
      have htake : (sortByScoreDesc sc).take maxResults = sortByScoreDesc sc :=
        List.take_of_length_le (by rw [length_sortByScoreDesc, hsclen]; exact hcnt)
      rw [hl2, htake, List.filter_map]
      have hcong : (sortByScoreDesc sc).filter
            ((fun e => entryScore query e == s) ∘ (fun p => p.1))
          = (sortByScoreDesc sc).filter (fun p => p.2 == s) := by
        refine List.filter_congr ?_
        intro p hp
        simp only [Function.comp]
        rw [hsnd p hp]
      rw [hcong, filter_sortByScoreDesc, hchar, List.filter_filter]
      have habs : (idx.map (fun e => (e, entryScore query e))).filter
            (fun a => (a.2 == s) && decide (0 < a.2))
          = (idx.map (fun e => (e, entryScore query e))).filter
            (fun a => a.2 == s) := by
        refine List.filter_congr ?_
        intro a _
        by_cases h : a.2 == s
        · have ha : a.2 = s := by simpa using h
          simp [h, ha, hs]
        · simp [h]
      rw [habs, List.filter_map, List.map_map]
      have : ((fun p : LocalSymbolIndexEntry × Nat => p.1) ∘
          (fun e => (e, entryScore query e))) = id := rfl
      rw [this, List.map_id]
      rfl

/-- C3 amended witness: the two-entry tie index instantiates the theorem. -/
theorem search_sorted_amended_witness :
    search [mkTitleEntry "ZebraView", mkTitleEntry "AppleView"] "view" 20
      = .ok [mkTitleEntry "ZebraView", mkTitleEntry "AppleView"] ∧
    ([mkTitleEntry "ZebraView", mkTitleEntry "AppleView"]).length ≤ 20 := by
  have h : search [mkTitleEntry "ZebraView", mkTitleEntry "AppleView"] "view" 20
      = .ok [mkTitleEntry "ZebraView", mkTitleEntry "AppleView"] := by decide
  exact ⟨h, (search_sorted_amended _ "view" 20 _ h).1⟩

/-! ### Helper lemmas for the fallback chain -/

lemma checkReferenceMatch_path_only {ref : ReferenceData} {q : String}
    (htitle : strContains (toLowerStr (ref.title.getD "")) (toLowerStr q) = false)
    (hpath : (splitKeep '/' (toLowerStr (ref.url.getD ""))).any
      (fun part => strContains part (toLowerStr q)) = true) :
    checkReferenceMatch ref (toLowerStr q) = { isMatch := true, foundVia := .hierarchical } := by
  unfold checkReferenceMatch
  simp [htitle, hpath]

lemma performHierarchicalSearch_single {fw : FrameworkData}
    {expanded : List (List (String × ReferenceData))} {q fname : String}
    {maxResults : Nat} {id : String} {ref : ReferenceData}
    (href : fw.references = [(id, ref)])
    (htitle : strContains (toLowerStr (ref.title.getD "")) (toLowerStr q) = false)
    (hpath : (splitKeep '/' (toLowerStr (ref.url.getD ""))).any
      (fun part => strContains part (toLowerStr q)) = true)
    (hmax : 0 < maxResults) :
    performHierarchicalSearch fw expanded q fname maxResults
      = [createSearchResult ref fname fw .hierarchical] := by
  have hm0 : maxResults ≠ 0 := by omega
  simp [performHierarchicalSearch, href, hierScan,
    checkReferenceMatch_path_only htitle hpath, hm0]

lemma performFallbackSearches_of_hier_nonempty {fw : FrameworkData}
    {expanded : List (List (String × ReferenceData))} {q fname : String}
    {maxResults : Nat} (platform symbolType : Option String)
    (hne : performHierarchicalSearch fw expanded q fname maxResults ≠ []) :
    performFallbackSearches fw expanded q fname maxResults platform symbolType
      = performHierarchicalSearch fw expanded q fname maxResults := by
  unfold performFallbackSearches
  rw [if_pos (by simpa [List.isEmpty_iff] using hne)]

/-- C4: a reference whose URL has a path segment containing the query while
its title does not is classified `matches = true, foundVia = hierarchical`
by `checkReferenceMatch` - not `direct` and not `regex`; on a framework
document whose one reference it is, the whole fallback chain returns exactly
that result; and whenever the hierarchical strategy returns anything, the
fallback chain returns its output unchanged, so the regex and
plain-substring fallbacks contribute only when it returned nothing. -/
theorem fallback_hierarchical_first :
    (∀ ref q,
      strContains (toLowerStr (ref.title.getD "")) (toLowerStr q) = false →
      (splitKeep '/' (toLowerStr (ref.url.getD ""))).any
        (fun part => strContains part (toLowerStr q)) = true →
      checkReferenceMatch ref (toLowerStr q)
        = { isMatch := true, foundVia := .hierarchical }) ∧
    (∀ fw expanded q fname maxResults platform symbolType id ref,
      fw.references = [(id, ref)] →
      strContains (toLowerStr (ref.title.getD "")) (toLowerStr q) = false →
      (splitKeep '/' (toLowerStr (ref.url.getD ""))).any
        (fun part => strContains part (toLowerStr q)) = true →
      0 < maxResults →
      performFallbackSearches fw expanded q fname maxResults platform symbolType
        = [createSearchResult ref fname fw .hierarchical]) ∧
    (∀ fw expanded q fname maxResults platform symbolType,
      performHierarchicalSearch fw expanded q fname maxResults ≠ [] →
      performFallbackSearches fw expanded q fname maxResults platform symbolType
        = performHierarchicalSearch fw expanded q fname maxResults) := by
  refine ⟨?_, ?_, ?_⟩
  · intro ref q h1 h2
    exact checkReferenceMatch_path_only h1 h2
  · intro fw expanded q fname maxResults platform symbolType id ref href h1 h2 hmax
    have hh := @performHierarchicalSearch_single fw expanded q fname maxResults id ref
      href h1 h2 hmax
    rw [performFallbackSearches_of_hier_nonempty platform symbolType (by rw [hh]; simp), hh]
  · intro fw expanded q fname maxResults platform symbolType hne
    exact performFallbackSearches_of_hier_nonempty platform symbolType hne

/-- C4 witness: the `tabbar` reference inside the sample framework. -/
theorem fallback_hierarchical_first_witness :
    exFramework.references = [("doc-tabbar", exTabbarRef)] ∧
    strContains (toLowerStr (exTabbarRef.title.getD "")) (toLowerStr "tabbar") = false ∧
    (splitKeep '/' (toLowerStr (exTabbarRef.url.getD ""))).any
      (fun part => strContains part (toLowerStr "tabbar")) = true ∧
    performFallbackSearches exFramework [] "tabbar" "SwiftUI" 10 none none
      = [createSearchResult exTabbarRef "SwiftUI" exFramework .hierarchical] := by
  refine ⟨by decide, by decide, by decide, ?_⟩
  exact fallback_hierarchical_first.2.1 exFramework [] "tabbar" "SwiftUI" 10 none none
    "doc-tabbar" exTabbarRef (by decide) (by decide) (by decide) (by decide)

/-! ### Helper lemmas for the downloader -/

lemma layerStep_skip {fetchSym : String → Nat → Option FrameworkData}
    {layerStart : List String} {acc : DownloaderState × List String} {id : String}
    (h : layerStart.contains id) :
    layerStep fetchSym layerStart acc id = acc := by
  unfold layerStep
  rw [if_pos h]

lemma foldl_layerStep_all_skip {fetchSym : String → Nat → Option FrameworkData}
    {layerStart : List String} (ids : List String)
    (acc : DownloaderState × List String)
    (hall : ∀ id ∈ ids, layerStart.contains id) :
    ids.foldl (layerStep fetchSym layerStart) acc = acc := by
  induction ids generalizing acc with
  | nil => rfl
  | cons id rest ih =>
    rw [List.foldl_cons, layerStep_skip (hall id (List.mem_cons_self id rest))]
    exact ih acc (fun x hx => hall x (List.mem_cons_of_mem id hx))

lemma foldl_layerStep_filter {fetchSym : String → Nat → Option FrameworkData}
    {layerStart : List String} (ids : List String)
    (acc : DownloaderState × List String) :
    ids.foldl (layerStep fetchSym layerStart) acc
      = (ids.filter (fun id => !(layerStart.contains id))).foldl
          (layerStep fetchSym layerStart) acc := by
  induction ids generalizing acc with
  | nil => rfl
  | cons id rest ih =>
    by_cases h : layerStart.contains id
    · rw [List.foldl_cons, layerStep_skip h, List.filter_cons_of_neg (by simpa using h)]
      exact ih acc
    · rw [List.foldl_cons, List.filter_cons_of_pos (by simpa using h), List.foldl_cons]
      exact ih _

lemma downloadSymbolsRecursively_all_downloaded
    {fetchSym : String → Nat → Option FrameworkData} {st : DownloaderState}
    (ids : List String) (depth : Nat)
    (hall : ∀ id ∈ ids, st.downloaded.contains id) :
    downloadSymbolsRecursively fetchSym ids depth st = st := by
  rw [downloadSymbolsRecursively]
  rw [foldl_layerStep_all_skip ids (st, []) hall]
  simp

/-- C5: an identifier already in the downloader's downloaded-symbols set is
skipped without a fetch (processing a layer is the same as processing only
its not-yet-downloaded identifiers), and when every seed identifier of the
framework is already downloaded, a repeated `downloadAllSymbols` returns the
state unchanged - in particular it issues zero symbol fetches (the fetch
counter does not move). -/
theorem downloadAllSymbols_idempotent :
    (∀ (fetchSym : String → Nat → Option FrameworkData) layerStart
        (ids : List String) (acc : DownloaderState × List String),
      ids.foldl (layerStep fetchSym layerStart) acc
        = (ids.filter (fun id => !(layerStart.contains id))).foldl
            (layerStep fetchSym layerStart) acc) ∧
    (∀ (fetchSym : String → Nat → Option FrameworkData) (st : DownloaderState)
        (ids : List String) (depth : Nat),
      (∀ id ∈ ids, st.downloaded.contains id) →
      downloadSymbolsRecursively fetchSym ids depth st = st) ∧
    (∀ t fw (fetchSym : String → Nat → Option FrameworkData) (st : DownloaderState),
      (∀ id ∈ extractAllIdentifiers fw, st.downloaded.contains id) →
      downloadAllSymbols (some t) (.ok fw) fetchSym st = .ok st) := by
  refine ⟨?_, ?_, ?_⟩
  · intro fetchSym layerStart ids acc
    exact foldl_layerStep_filter ids acc
  · intro fetchSym st ids depth hall
    exact downloadSymbolsRecursively_all_downloaded ids depth hall
  · intro t fw fetchSym st hall
    simp only [downloadAllSymbols]
    rw [@downloadSymbolsRecursively_all_downloaded fetchSym st
      (extractAllIdentifiers fw) 0 hall]

/-- C5 witness: a framework whose one identifier is already downloaded. -/
theorem downloadAllSymbols_idempotent_witness :
    (∀ id ∈ extractAllIdentifiers exFramework,
      (["doc-tabbar"] : List String).contains id) ∧
    downloadAllSymbols (some "SwiftUI") (.ok exFramework) (fun _ _ => none)
        { downloaded := ["doc-tabbar"], fetchCount := 0 }
      = .ok { downloaded := ["doc-tabbar"], fetchCount := 0 } := by
  refine ⟨by decide, ?_⟩
  exact downloadAllSymbols_idempotent.2.2 "SwiftUI" exFramework (fun _ _ => none)
    { downloaded := ["doc-tabbar"], fetchCount := 0 } (by decide)

lemma retryAux_spec (fetchSym : String → Nat → Option FrameworkData) (id : String) :
    ∀ fuel attempt, 1 ≤ attempt →
      1 ≤ (retryAux fetchSym id attempt fuel).attempts ∧
      (retryAux fetchSym id attempt fuel).attempts ≤ fuel + 1 ∧
      (retryAux fetchSym id attempt fuel).delays
        = (List.range ((retryAux fetchSym id attempt fuel).attempts - 1)).map
            (fun i => rateLimitDelay * 2 ^ (attempt - 1 + i)) := by
  intro fuel
  induction fuel with
  | zero =>
    intro attempt _
    cases hf : fetchSym id attempt <;> simp [retryAux, hf]
  | succ f ih =>
    intro attempt hatt
    cases hf : fetchSym id attempt with
    | some doc => simp [retryAux, hf]
    | none =>
      simp only [retryAux, hf]
      obtain ⟨h1, h2, h3⟩ := ih (attempt + 1) (by omega)
      refine ⟨by simp, by simp; omega, ?_⟩
      rw [h3]
      obtain ⟨m, hm⟩ : ∃ m, (retryAux fetchSym id (attempt + 1) f).attempts = m + 1 :=
        ⟨(retryAux fetchSym id (attempt + 1) f).attempts - 1, by omega⟩
      rw [hm]
      simp only [Nat.add_sub_cancel, List.range_succ_eq_map, List.map_cons, List.map_map]
      refine List.cons_eq_cons.mpr ⟨by simp, ?_⟩
      apply List.map_congr_left
      intro i _
      simp only [Function.comp, Nat.succ_eq_add_one]
      exact congrArg (fun e => rateLimitDelay * 2 ^ e) (by omega)

lemma retryAux_none_result (id : String) :
    ∀ fuel attempt, (retryAux (fun _ _ => none) id attempt fuel).result = none := by
  intro fuel
  induction fuel with
  | zero => intro attempt; rfl
  | succ f ih => intro attempt; simpa [retryAux] using ih (attempt + 1)

lemma foldl_layerStep_allfail (layerStart : List String) (ids : List String) :
    ∀ acc : DownloaderState × List String,
      ((ids.foldl (layerStep (fun _ _ => none) layerStart) acc).1.downloaded
        = acc.1.downloaded) ∧
      ((ids.foldl (layerStep (fun _ _ => none) layerStart) acc).2 = acc.2) := by
  induction ids with
  | nil => intro acc; exact ⟨rfl, rfl⟩
  | cons id rest ih =>
    intro acc
    rw [List.foldl_cons]
    by_cases h : layerStart.contains id
    · rw [layerStep_skip h]
      exact ih acc
    · have hres : (downloadSymbolWithRetry (fun _ _ => none) id).result = none :=
        retryAux_none_result id (maxRetries - 1) 1
      have hstep : layerStep (fun _ _ => none) layerStart acc id
          = ({ acc.1 with fetchCount := acc.1.fetchCount
                + (downloadSymbolWithRetry (fun _ _ => none) id).attempts }, acc.2) := by
        unfold layerStep
        rw [if_neg h]
        simp [hres]
      rw [hstep]
      exact ih _

lemma downloadSymbolsRecursively_allfail (ids : List String) (depth : Nat)
    (st : DownloaderState) :
    (downloadSymbolsRecursively (fun _ _ => none) ids depth st).downloaded
      = st.downloaded := by
  rw [downloadSymbolsRecursively]
  obtain ⟨hdl, hsnd⟩ := foldl_layerStep_allfail st.downloaded ids (st, [])
  rw [dif_neg (by rw [hsnd]; simp)]
  exact hdl

/-- C6: per-symbol downloads are retried at most `maxRetries` (3) times with
exponential backoff delays `100 * 2 ^ i`; the retry wrapper absorbs every
fetch error (its result is an `Option`), so `downloadAllSymbols` with a
selected technology succeeds for every symbol-fetch oracle - even the one
that always fails, which leaves the downloaded set unchanged - and throws
exactly when the initial framework fetch fails. -/
theorem downloadAllSymbols_failure_semantics :
    (∀ (fetchSym : String → Nat → Option FrameworkData) (id : String),
      1 ≤ (downloadSymbolWithRetry fetchSym id).attempts ∧
      (downloadSymbolWithRetry fetchSym id).attempts ≤ maxRetries ∧
      (downloadSymbolWithRetry fetchSym id).delays
        = (List.range ((downloadSymbolWithRetry fetchSym id).attempts - 1)).map
            (fun i => rateLimitDelay * 2 ^ i)) ∧
    (∀ (t : String) fw (fetchSym : String → Nat → Option FrameworkData)
        (st : DownloaderState),
      ∃ st2, downloadAllSymbols (some t) (.ok fw) fetchSym st = .ok st2) ∧
    (∀ (t : String) (fetchSym : String → Nat → Option FrameworkData)
        (st : DownloaderState),
      downloadAllSymbols (some t) (.error ()) fetchSym st
        = .error .frameworkFetchFailed) ∧
    (∀ (t : String) fw (st : DownloaderState),
      ∃ st2, downloadAllSymbols (some t) (.ok fw) (fun _ _ => none) st = .ok st2 ∧
        st2.downloaded = st.downloaded) := by
  refine ⟨?_, ?_, ?_, ?_⟩
  · intro fetchSym id
    obtain ⟨h1, h2, h3⟩ := retryAux_spec fetchSym id (maxRetries - 1) 1 (le_refl 1)
    unfold downloadSymbolWithRetry
    refine ⟨h1, by simpa [maxRetries] using h2, ?_⟩
    rw [h3]
    simp
  · intro t fw fetchSym st
    exact ⟨_, rfl⟩
  · intro t fetchSym st
    rfl
  · intro t fw st
    exact ⟨_, rfl, downloadSymbolsRecursively_allfail (extractAllIdentifiers fw) 0 st⟩

/-- C7 counterexample: an existing but unparsable technologies file makes
`loadTechnologies` re-throw the parse error rather than return the
cache-miss signal. -/
theorem loadTechnologies_unparsable_throws :
    loadTechnologies .unparsable = .thrown ∧ loadTechnologies .unparsable ≠ .miss :=
  ⟨rfl, fun h => LoadTechsResult.noConfusion h⟩

/-- C7 amended: a missing file and a file that parses to anything that is
not a recognizable catalog shape are treated as a cache miss (the parsed
branch can never throw), but an unparsable file propagates the parse error
to the caller; a parsable wrapper-format file is a hit. -/
theorem loadTechnologies_amended :
    (∀ v, loadTechnologies (.parsed v) ≠ .thrown) ∧
    loadTechnologies .absent = .miss ∧
    loadTechnologies (.parsed (.str "garbage")) = .miss ∧
    loadTechnologies (.parsed (.obj [("references", .obj [("doc-swiftui",
        .obj [("identifier", .str "doc-swiftui")])])]))
      = .hit (.obj [("doc-swiftui", .obj [("identifier", .str "doc-swiftui")])]) := by
  refine ⟨?_, rfl, rfl, rfl⟩
  intro v h
  simp only [loadTechnologies] at h
  repeat' split at h
  all_goals exact LoadTechsResult.noConfusion h

/-- C7 amended witness: the parsed branch applied to an empty object. -/
theorem loadTechnologies_amended_witness :
    loadTechnologies (.parsed (.obj [])) ≠ .thrown :=
  loadTechnologies_amended.1 (.obj [])

/-- C8: switching the active technology to a different identifier (or to
none) clears the local symbol index, the active framework data, the
framework index, and the expanded-identifier set (so the reported index
count is 0 until rebuilt), changes nothing on disk, and installs the new
selection. -/
theorem setActiveTechnology_resets :
    ∀ st technology,
      (technology = none ∨
        st.activeTechnology.map Technology.identifier
          ≠ technology.map Technology.identifier) →
      (setActiveTechnology st technology).localSymbolIndex = none ∧
      (setActiveTechnology st technology).activeFrameworkData = none ∧
      (setActiveTechnology st technology).frameworkIndex = none ∧
      (setActiveTechnology st technology).expandedIdentifiers = [] ∧
      localSymbolIndexCount (setActiveTechnology st technology) = 0 ∧
      (setActiveTechnology st technology).disk = st.disk ∧
      (setActiveTechnology st technology).activeTechnology = technology := by
  intro st technology h
  cases technology with
  | none =>
    simp [setActiveTechnology, resetIndexForNewTechnology, localSymbolIndexCount]
  | some t =>
    cases hprev : st.activeTechnology with
    | none =>
      simp [setActiveTechnology, hprev, resetIndexForNewTechnology, localSymbolIndexCount]
    | some prev =>
      have hne : prev.identifier ≠ t.identifier := by
        rcases h with h | h
        · cases h
        · rw [hprev] at h
          simpa using h
      simp [setActiveTechnology, hprev, hne, resetIndexForNewTechnology,
        localSymbolIndexCount]

/-- C8 witness: switching `exServerState` from technology `doc-a` to
`doc-b` clears the dependent in-memory state. -/
theorem setActiveTechnology_resets_witness :
    ((some { identifier := "doc-b", title := "B" } : Option Technology) = none ∨
      exServerState.activeTechnology.map Technology.identifier
        ≠ (some { identifier := "doc-b", title := "B" } : Option Technology).map
            Technology.identifier) ∧
    (setActiveTechnology exServerState
      (some { identifier := "doc-b", title := "B" })).localSymbolIndex = none ∧
    localSymbolIndexCount (setActiveTechnology exServerState
      (some { identifier := "doc-b", title := "B" })) = 0 ∧
    (setActiveTechnology exServerState
      (some { identifier := "doc-b", title := "B" })).disk = exServerState.disk := by
  have h : ((some { identifier := "doc-b", title := "B" } : Option Technology) = none ∨
      exServerState.activeTechnology.map Technology.identifier
        ≠ (some { identifier := "doc-b", title := "B" } : Option Technology).map
            Technology.identifier) := Or.inr (by decide)
  have hc := setActiveTechnology_resets exServerState
    (some { identifier := "doc-b", title := "B" }) h
  exact ⟨h, hc.1, hc.2.2.2.2.1, hc.2.2.2.2.2.1⟩
